import Mathlib

/-!
Verification of the mucalc session driver (src/mucalc.cpp) against its
natural-language specification.

The file shallowly embeds the parts of mucalc.cpp that the claims are about:

* the diagnostic fix-up performed in the catch block of `eval_and_print`
  (position adjustment, trailing-blank removal, caret marker line);
* the implicit variable store (`added_vars` and the muParser variable
  factory `add_var`);
* the driver `eval_and_print` itself (success printing, last-result update,
  error path);
* the argument-mode loop and the interactive read/evaluate loop of `main`;
* the readline completion generator `completion_generator` with its static
  `function_names` and `constant_names` tables.

The external expression engine (muParser) is out of scope for the spec; it
is represented abstractly: one engine call is described by the list of new
identifiers it resolved through the variable factory, in order, and by its
outcome (an ordered list of result values plus the variable assignments it
performed, or a raw diagnostic).  Numeric values are C doubles in the
source; none of the claims depends on arithmetic on values, so the value
type is kept as a parameter with a zero element (new cells are initialized
to 0.0).
-/

set_option autoImplicit false

namespace Mucalc

/-! ## Raw diagnostics and the fix-up step (mucalc.cpp, catch block of eval_and_print) -/

/-- muParser error classification codes.  The only code the fix-up step
inspects is `mu::ecUNEXPECTED_EOF`; every other classification behaves
identically, so they are collapsed into one numbered constructor. -/
inductive ErrCode where
  | ecUNEXPECTED_EOF : ErrCode
  | other : Nat → ErrCode
deriving DecidableEq

/-- A raw engine diagnostic as read off the muParser exception: the
classification code (`e.GetCode()`), the 0-based character offset
(`e.GetPos()`), and the offending token text (`e.GetToken()`). -/
structure RawDiag where
  code : ErrCode
  pos : Nat
  tok : String
deriving DecidableEq

/-- Position fix-up from the catch block:
`if (code != mu::ecUNEXPECTED_EOF) pos++; if (pos == 0) pos = 1;`. -/
def fix_pos (code : ErrCode) (pos : Nat) : Nat :=
  let p := if code ≠ ErrCode.ecUNEXPECTED_EOF then pos + 1 else pos
  if p = 0 then 1 else p

/-- Token fix-up from the catch block:
`if (token.back() == ' ') token.pop_back();`.
`std::string::back()` on an empty string is an out-of-bounds access
(undefined behavior); the source has no guard for that case, so the result
for an empty token is modelled as `none`.  For a non-empty token the last
character is inspected and a single trailing space is removed. -/
def fix_token (tok : List Char) : Option (List Char) :=
  match tok.getLast? with
  | none => none
  | some c => if c = ' ' then some tok.dropLast else some tok

/-- The whole fix-up: `mu::Parser::exception_type fixed_err(code, pos, token);`
built from the adjusted position and the trimmed token. -/
def fix_diag (d : RawDiag) : Option RawDiag :=
  (fix_token d.tok.data).map (fun t => ⟨d.code, fix_pos d.code d.pos, ⟨t⟩⟩)

/-- The caret marker line printed under the offending expression:
`std::string blanks(fixed_err.GetPos() - 1, ' '); fprintf(stderr, "%s^\n", ...)`,
i.e. (column - 1) filler spaces followed by a single caret. -/
def caret_line (pos : Nat) : List Char :=
  List.replicate (pos - 1) ' ' ++ ['^']

/-! ## The implicit variable store (added_vars / add_var) -/

variable {α : Type} [Zero α]

/-- The mutable process state the claims are about: the reserved
last-result cell (`double last_result`, registered with the engine as the
variable `_`) and the implicitly created variables
(`std::vector<std::pair<std::string, std::unique_ptr<double>>> added_vars`),
in creation order. -/
structure MuState (α : Type) where
  lastResult : α
  addedVars : List (String × α)
deriving DecidableEq

/-- The muParser variable factory `add_var`: unconditionally pushes a new
cell initialized to 0.0 onto `added_vars`.  The `double*` it returns is the
pointer to the appended cell, i.e. the cell at index
`st.addedVars.length` of the new list. -/
def add_var (name : String) (st : MuState α) : MuState α :=
  { st with addedVars := st.addedVars ++ [(name, 0)] }

/-- A reference to a variable cell, standing for the `double*` handed to
the engine: either the reserved last-result cell (`&last_result`,
registered for `_`) or the cell at a given index of `added_vars`. -/
inductive CellRef where
  | lastResultCell : CellRef
  | varCell : Nat → CellRef
deriving DecidableEq

/-- Dereference a cell reference in a given state. -/
def getCell (st : MuState α) : CellRef → Option α
  | CellRef.lastResultCell => some st.lastResult
  | CellRef.varCell i => (st.addedVars.get? i).map Prod.snd

/-- Index of the first cell bound to `name` in `added_vars`. -/
def lookupVar : List (String × α) → String → Option Nat
  | [], _ => none
  | p :: rest, n => if p.1 = n then some 0 else (lookupVar rest n).map (· + 1)

/-- Modelled from the spec (§6, §4.2): the external engine keeps its own
table of defined variables — the pre-registered `_` (bound to
`&last_result` by `parser.DefineVar("_", &last_result)`) and every cell a
previous factory call produced — and invokes the factory callback
(`add_var`, installed by `parser.SetVarFactory(add_var, NULL)`) only for a
name not in that table.  This is the composite get-or-create operation the
spec describes. -/
def engineResolve (st : MuState α) (name : String) : CellRef × MuState α :=
  if name = "_" then (CellRef.lastResultCell, st)
  else
    match lookupVar st.addedVars name with
    | some i => (CellRef.varCell i, st)
    | none => (CellRef.varCell st.addedVars.length, add_var name st)

/-! ## One engine call, abstractly -/

/-- Outcome of one `parser.SetExpr(expr); parser.Eval(n)` round trip:
either an ordered list of result values together with the assignments the
evaluation performed on existing cells, or a raw diagnostic.  muParser
reports all diagnostics of this program while compiling the expression,
before any assignment executes, so the error case carries no updates. -/
inductive EngineOutcome (α : Type) where
  | ok : List α → List (String × α) → EngineOutcome α
  | err : RawDiag → EngineOutcome α

/-- One engine call: the identifiers the engine resolved through the
variable factory during the call (each previously unknown, in resolution
order) and the outcome. -/
structure EngineCall (α : Type) where
  newVars : List String
  outcome : EngineOutcome α

/-- Apply the assignments an evaluation performed to the variable list. -/
def apply_updates (vars : List (String × α)) (updates : List (String × α)) :
    List (String × α) :=
  updates.foldl
    (fun vs u => vs.map (fun p => if p.1 = u.1 then (p.1, u.2) else p)) vars

/-- The exit code `eval_and_print` contributes for a call: 0 on success,
1 when the engine raised. -/
def line_outcome (call : EngineCall α) : Nat :=
  match call.outcome with
  | EngineOutcome.ok _ _ => 0
  | EngineOutcome.err _ => 1

/-- The printf loop of the success path:
`printf("%.12g%s", results[j], j == n - 1 ? "\n" : ", ")` — each value in
source order, paired with the separator printed after it. -/
def print_results : List α → List (α × String)
  | [] => []
  | [r] => [(r, "\n")]
  | r :: rest => (r, ", ") :: print_results rest

/-- Everything observable about one `eval_and_print` call. -/
structure EvalResult (α : Type) where
  retval : Nat
  printed : List (α × String)
  reported : Option RawDiag
  state : MuState α

/-- Shallow embedding of `eval_and_print`.  The engine call first resolves
its new identifiers through the factory (`add_var`), then either returns
`n` results — which are printed in order, after which
`if (n > 0) *last_result = results[0];` — or raises, in which case the
catch block reports the (fixed) diagnostic and sets `retval = 1` without
touching `last_result` or any existing cell.  The raw diagnostic is kept in
`reported`; its user-facing rendering goes through `fix_diag` and
`caret_line`, which are verified separately. -/
def eval_and_print (st : MuState α) (call : EngineCall α) : EvalResult α :=
  let st1 := call.newVars.foldl (fun s n => add_var n s) st
  match call.outcome with
  | EngineOutcome.ok results updates =>
    let st2 := { st1 with addedVars := apply_updates st1.addedVars updates }
    let st3 :=
      match results with
      | [] => st2
      | r :: _ => { st2 with lastResult := r }
    { retval := 0, printed := print_results results, reported := none, state := st3 }
  | EngineOutcome.err d =>
    { retval := 1, printed := [], reported := some d, state := st1 }

/-! ## Argument mode (main, `if (argc >= 2)`) -/

/-- The argument-mode loop of `main`:
`for (int i = 1; i < argc; i++) retval = eval_and_print(...); return retval;`
Each iteration overwrites `retval` with the current call's result. -/
def run_args (st : MuState α) (calls : List (EngineCall α)) : Nat × MuState α :=
  calls.foldl
    (fun acc call =>
      let e := eval_and_print acc.2 call
      (e.retval, e.state))
    (0, st)

/-! ## Readline completion (completion_generator) -/

/-- The static `constant_names` table (NULL terminator dropped). -/
def constant_names : List String :=
  [r"pi", r"e"]

/-- The static `function_names` table (NULL terminator dropped). -/
def function_names : List String :=
  [r"deg", r"rad",
   r"sin", r"asin", r"cos", r"acos", r"tan", r"atan", r"atan2",
   r"sinh", r"asinh", r"cosh", r"acosh", r"tanh", r"atanh",
   r"pow", r"exp", r"exp2", r"exp10", r"log", r"ln", r"log2", r"log10",
   r"sqrt", r"cbrt", r"abs", r"sign",
   r"fract", r"int", r"ceil", r"floor", r"round", r"rint", r"trunc",
   r"min", r"max", r"sum", r"avg", r"med",
   r"clamp", r"step", r"smoothstep", r"mix",
   r"seed", r"random", r"gaussian"]

/-- C `strncmp(name, text, len) == 0`: the first `len` characters agree,
where comparison stops early at the end (the NUL) of either string.  The
end of the character list stands for the terminating NUL. -/
def strncmpEq : List Char → List Char → Nat → Bool
  | _, _, 0 => true
  | [], [], _ + 1 => true
  | [], _ :: _, _ + 1 => false
  | _ :: _, [], _ + 1 => false
  | a :: as, b :: bs, n + 1 => a == b && strncmpEq as bs n

/-- The match test of `completion_generator`:
`strncmp(name, text, len) == 0` with `len = strlen(text)`. -/
def strncmp_pred (text : String) (name : String) : Bool :=
  strncmpEq name.data text.data text.data.length

/-- One `while ((name = table[index])) { index++; if (match) break; }`
loop: scan forward for the first matching name; return it together with
the table suffix after it (the advanced index). -/
def scanList (p : String → Bool) : List String → Option (String × List String)
  | [] => none
  | n :: rest => if p n then some (n, rest) else scanList p rest

/-- The generator's static cursor state between calls: the unscanned
suffixes of the three tables (an index into a table is represented by the
suffix it points at; an index stuck at the NULL terminator is the empty
suffix). -/
structure GenSt where
  funs : List String
  consts : List String
  vars : List String

/-- One call to `completion_generator` with `state != 0`: try the function
table first (append character `'('`), then the constant table, then the
live variable names (append character `' '`), returning NULL (`none`) when
all three are exhausted. -/
def genStep (p : String → Bool) (s : GenSt) : Option ((String × Char) × GenSt) :=
  match scanList p s.funs with
  | some (n, rest) => some ((n, '('), ⟨rest, s.consts, s.vars⟩)
  | none =>
    match scanList p s.consts with
    | some (n, rest) => some ((n, ' '), ⟨[], rest, s.vars⟩)
    | none =>
      match scanList p s.vars with
      | some (n, rest) => some ((n, ' '), ⟨[], [], rest⟩)
      | none => none

/-- Size of the remaining scan work; each successful `genStep` shrinks it. -/
def genMeasure (s : GenSt) : Nat :=
  s.funs.length + s.consts.length + s.vars.length

theorem scanList_some_lt {p : String → Bool} :
    ∀ {l : List String} {n : String} {rest : List String},
      scanList p l = some (n, rest) → rest.length < l.length := by
  intro l
  induction l with
  | nil => intro n rest h; simp [scanList] at h
  | cons a as ih =>
    intro n rest h
    by_cases hp : p a
    · simp [scanList, hp] at h
      rw [← h.2]
      simp only [List.length_cons]
      omega
    · simp [scanList, hp] at h
      have := ih h
      simp
      omega

theorem genStep_lt {p : String → Bool} {s s' : GenSt} {e : String × Char}
    (h : genStep p s = some (e, s')) : genMeasure s' < genMeasure s := by
  unfold genStep at h
  rcases hf : scanList p s.funs with _ | ⟨n, rest⟩ <;> rw [hf] at h
  · rcases hc : scanList p s.consts with _ | ⟨n, rest⟩ <;> rw [hc] at h
    · rcases hv : scanList p s.vars with _ | ⟨n, rest⟩ <;> rw [hv] at h
      · simp at h
      · have := scanList_some_lt hv
        simp at h
        simp [← h.2, genMeasure]
        omega
    · have := scanList_some_lt hc
      simp at h
      simp [← h.2, genMeasure]
      omega
  · have := scanList_some_lt hf
    simp at h
    simp [← h.2, genMeasure]
    omega

/-- The full enumeration the readline machinery collects from
`completion_generator`: the first call (with `state == 0`) resets the three
cursors, every further call resumes from the saved cursor state, and
collection stops at the first NULL.  Each produced name is paired with the
`rl_completion_append_character` set for it. -/
def genAll (p : String → Bool) (s : GenSt) : List (String × Char) :=
  match h : genStep p s with
  | none => []
  | some (e, s') => e :: genAll p s'
termination_by genMeasure s
decreasing_by exact genStep_lt h

/-- The complete enumeration reference (written from the spec's words,
§4.5): matching function names (paren append character), then matching
constant names, then matching variable names, each in table order. -/
def complete_spec (p : String → Bool) (fs cs vs : List String) : List (String × Char) :=
  (fs.filter p).map (fun n => (n, '('))
    ++ (cs.filter p).map (fun n => (n, ' '))
    ++ (vs.filter p).map (fun n => (n, ' '))

/-! ## The interactive loop (main, `if (isatty(fileno(stdin)))`) -/

/-- What mucalc trims when classifying an interactive line:
`find_first_not_of(' ')` / `find_last_not_of(' ')` followed by `substr`
between them, with the empty string when the line is all spaces.  Only the
space character is stripped (tabs and other whitespace are not). -/
def trimmed_line (cs : List Char) : List Char :=
  ((cs.dropWhile (fun c => c == ' ')).reverse.dropWhile (fun c => c == ' ')).reverse

/-- The observable actions one interactive iteration can take besides
history recording. -/
inductive Event where
  | shortHelp : Event
  | coreHelp : Event
  | evaluated : Nat → Event
deriving DecidableEq

/-- Everything observable about one interactive session: the final
`retval` that `main` returns, the lines appended to readline history in
order, the final value of `quit_via_control_d` (true exactly when the loop
ended by end of input, in which case `^D` is printed), the per-line events,
and the final evaluator state. -/
structure InteractiveResult (α : Type) where
  retval : Nat
  history : List String
  quit_via_control_d : Bool
  events : List Event
  state : MuState α

/-- Shallow embedding of the interactive `while ((line = readline("> ")))`
loop.  `inputs` is the sequence of lines the terminal would deliver, each
paired with the engine call evaluating that raw line would make; the end of
the list is end of input (readline returning NULL).  Per iteration the
source trims the line, appends every line with a non-empty trim to history,
then classifies: empty trim prints the short usage hint; `help`/`?` prints
the full help; `quit`/`exit` clears `quit_via_control_d` and breaks;
anything else evaluates the raw line and overwrites `retval`. -/
def interactive_loop (st : MuState α) (retval : Nat) (hist : List String) :
    List (String × EngineCall α) → InteractiveResult α
  | [] => ⟨retval, hist, true, [], st⟩
  | (line, call) :: rest =>
    let t := trimmed_line line.data
    let hist' := if t ≠ [] then hist ++ [line] else hist
    if t = [] then
      let r := interactive_loop st retval hist' rest
      { r with events := Event.shortHelp :: r.events }
    else if t = (r"help").data ∨ t = (r"?").data then
      let r := interactive_loop st retval hist' rest
      { r with events := Event.coreHelp :: r.events }
    else if t = (r"quit").data ∨ t = (r"exit").data then
      ⟨retval, hist', false, [], st⟩
    else
      let e := eval_and_print st call
      let r := interactive_loop e.state e.retval hist' rest
      { r with events := Event.evaluated e.retval :: r.events }

/-- Reference function for C9 (written from the spec's words): the lines a
session appends to history — every line read whose trim is non-empty, once
each, in order, including `help`/`?` and the terminating `quit`/`exit`
line, and nothing after the terminating line. -/
def history_of : List (String × EngineCall α) → List String
  | [] => []
  | (line, _) :: rest =>
    let t := trimmed_line line.data
    if t = [] then history_of rest
    else if t = (r"quit").data ∨ t = (r"exit").data then [line]
    else line :: history_of rest

/-- Reference function for C2 (written from the spec's words, as amended):
the exit code of the interactive session is the outcome of the last line
that was actually evaluated before the loop ended, and the initial value
when no line was evaluated — independent of whether the loop ended through
`quit`/`exit` or through end of input. -/
def final_retval (r0 : Nat) : List (String × EngineCall α) → Nat
  | [] => r0
  | (line, call) :: rest =>
    let t := trimmed_line line.data
    if t = [] then final_retval r0 rest
    else if t = (r"help").data ∨ t = (r"?").data then final_retval r0 rest
    else if t = (r"quit").data ∨ t = (r"exit").data then r0
    else final_retval (line_outcome call) rest

/-! ## Helper lemmas -/

theorem foldl_add_var (newVars : List String) (st : MuState α) :
    (newVars.foldl (fun s n => add_var n s) st).addedVars
        = st.addedVars ++ newVars.map (fun n => (n, (0 : α)))
      ∧ (newVars.foldl (fun s n => add_var n s) st).lastResult = st.lastResult := by
  induction newVars generalizing st with
  | nil => simp
  | cons v vs ih =>
    simp only [List.foldl_cons, List.map_cons]
    rcases ih (add_var v st) with ⟨h1, h2⟩
    constructor
    · rw [h1]
      simp [add_var]
    · rw [h2]
      rfl

theorem eval_retval (st : MuState α) (call : EngineCall α) :
    (eval_and_print st call).retval = line_outcome call := by
  rcases call with ⟨nv, o⟩
  cases o <;> rfl

omit [Zero α] in
theorem lookupVar_append_none {vars : List (String × α)} {name : String}
    (h : lookupVar vars name = none) (v : α) :
    lookupVar (vars ++ [(name, v)]) name = some vars.length := by
  induction vars with
  | nil => simp [lookupVar]
  | cons p ps ih =>
    simp only [lookupVar] at h ⊢
    by_cases hp : p.1 = name
    · simp [hp] at h
    · simp only [hp, if_false] at h
      have h' : lookupVar ps name = none := by
        cases hl : lookupVar ps name
        · rfl
        · rw [hl] at h
          simp at h
      simp [hp, ih h']

theorem get_concat_length {β : Type} (l : List β) (a : β) :
    (l ++ [a]).get? l.length = some a := by
  induction l with
  | nil => rfl
  | cons x xs ih => exact ih

theorem replicate_get {β : Type} (a : β) :
    ∀ (n i : Nat), i < n → (List.replicate n a).get? i = some a := by
  intro n
  induction n with
  | zero => intro i h; exact absurd h (Nat.not_lt_zero i)
  | succ n ih =>
    intro i h
    cases i with
    | zero => rfl
    | succ j => exact ih j (by omega)

omit [Zero α] in
theorem print_results_fst : ∀ (rs : List α), (print_results rs).map Prod.fst = rs := by
  intro rs
  induction rs with
  | nil => rfl
  | cons r rest ih =>
    cases rest with
    | nil => rfl
    | cons b bs =>
      show List.map Prod.fst ((r, r", ") :: print_results (b :: bs)) = r :: b :: bs
      simp only [List.map_cons]
      rw [ih]

/-- A successful scan produces exactly the head of the filtered table. -/
theorem scanList_none_filter {p : String → Bool} :
    ∀ {l : List String}, scanList p l = none → l.filter p = [] := by
  intro l
  induction l with
  | nil => intro _; rfl
  | cons a as ih =>
    intro h
    by_cases hp : p a
    · simp [scanList, hp] at h
    · simp only [scanList, hp, if_false] at h
      simp [List.filter, hp, ih h]

theorem scanList_some_filter {p : String → Bool} :
    ∀ {l rest : List String} {n : String},
      scanList p l = some (n, rest) → l.filter p = n :: rest.filter p := by
  intro l
  induction l with
  | nil => intro rest n h; simp [scanList] at h
  | cons a as ih =>
    intro rest n h
    by_cases hp : p a
    · simp [scanList, hp] at h
      rcases h with ⟨h1, h2⟩
      subst h1
      subst h2
      simp [List.filter_cons, hp]
    · simp only [scanList, hp, if_false] at h
      simp [List.filter, hp, ih h]

theorem genAll_none {p : String → Bool} {s : GenSt}
    (h : genStep p s = none) : genAll p s = [] := by
  rw [genAll]
  split
  · rfl
  · rename_i e s' heq
    rw [h] at heq
    cases heq

theorem genAll_some {p : String → Bool} {s : GenSt} {e : String × Char} {s' : GenSt}
    (h : genStep p s = some (e, s')) : genAll p s = e :: genAll p s' := by
  rw [genAll]
  split
  · rename_i heq
    rw [h] at heq
    cases heq
  · rename_i e2 s2 heq
    rw [h] at heq
    rcases heq with ⟨⟩
    rfl

theorem gen_all_eq (p : String → Bool) :
    ∀ (N : Nat) (s : GenSt), genMeasure s ≤ N →
      genAll p s = complete_spec p s.funs s.consts s.vars := by
  intro N
  induction N with
  | zero =>
    intro s hs
    rcases s with ⟨fs, cs, vs⟩
    simp only [genMeasure] at hs
    have h1 : fs = [] := List.length_eq_zero.mp (by omega)
    have h2 : cs = [] := List.length_eq_zero.mp (by omega)
    have h3 : vs = [] := List.length_eq_zero.mp (by omega)
    subst h1; subst h2; subst h3
    have h0 : genStep p (⟨[], [], []⟩ : GenSt) = none := rfl
    rw [genAll_none h0]
    rfl
  | succ N ih =>
    intro s hs
    rcases hstep : genStep p s with _ | ⟨e, s'⟩
    · rw [genAll_none hstep]
      unfold genStep at hstep
      rcases hf : scanList p s.funs with _ | ⟨n, rest⟩ <;> rw [hf] at hstep
      · rcases hc : scanList p s.consts with _ | ⟨n, rest⟩ <;> rw [hc] at hstep
        · rcases hv : scanList p s.vars with _ | ⟨n, rest⟩ <;> rw [hv] at hstep
          · simp [complete_spec, scanList_none_filter hf,
                  scanList_none_filter hc, scanList_none_filter hv]
          · simp at hstep
        · simp at hstep
      · simp at hstep
    · rw [genAll_some hstep]
      have hlt := genStep_lt hstep
      rw [ih s' (by omega)]
      unfold genStep at hstep
      rcases hf : scanList p s.funs with _ | ⟨n, rest⟩ <;> rw [hf] at hstep
      · rcases hc : scanList p s.consts with _ | ⟨n, rest⟩ <;> rw [hc] at hstep
        · rcases hv : scanList p s.vars with _ | ⟨n, rest⟩ <;> rw [hv] at hstep
          · simp at hstep
          · simp only [Option.some_inj, Prod.mk.injEq] at hstep
            rcases hstep with ⟨he, hs'⟩
            rw [← hs', ← he]
            simp [complete_spec, scanList_none_filter hf,
                  scanList_none_filter hc, scanList_some_filter hv]
        · simp only [Option.some_inj, Prod.mk.injEq] at hstep
          rcases hstep with ⟨he, hs'⟩
          rw [← hs', ← he]
          simp [complete_spec, scanList_none_filter hf,
                scanList_some_filter hc]
      · simp only [Option.some_inj, Prod.mk.injEq] at hstep
        rcases hstep with ⟨he, hs'⟩
        rw [← hs', ← he]
        simp [complete_spec, scanList_some_filter hf]

/-- A line is classified blank exactly when it consists of space
characters only (tabs and other whitespace do not count: the source trims
with `find_first_not_of(' ')`). -/
theorem trimmed_line_eq_nil_iff (cs : List Char) :
    trimmed_line cs = [] ↔ ∀ c ∈ cs, c = ' ' := by
  unfold trimmed_line
  rw [List.reverse_eq_nil_iff, List.dropWhile_eq_nil_iff]
  constructor
  · intro h c hc
    have hsplit := List.takeWhile_append_dropWhile (p := fun c => c == ' ') (l := cs)
    rw [← hsplit] at hc
    rcases List.mem_append.mp hc with h1 | h1
    · have := List.mem_takeWhile_imp h1
      simpa using this
    · have := h c (List.mem_reverse.mpr h1)
      simpa using this
  · intro h c hc
    have := h c ((List.dropWhile_sublist _).subset (List.mem_reverse.mp hc))
    simp [this]

/-- `strncmp(name, text, strlen(text)) == 0` is exactly the literal
case-sensitive prefix test. -/
theorem strncmp_eq_prefix :
    ∀ (text name : List Char), strncmpEq name text text.length = text.isPrefixOf name := by
  intro text
  induction text with
  | nil =>
    intro name
    cases name <;> rfl
  | cons b bs ih =>
    intro name
    cases name with
    | nil => rfl
    | cons a as =>
      simp only [List.length_cons, strncmpEq, List.isPrefixOf, ih as]
      rw [Bool.beq_comm]

theorem loop_history (inputs : List (String × EngineCall α)) :
    ∀ (st : MuState α) (r0 : Nat) (hist : List String),
      (interactive_loop st r0 hist inputs).history = hist ++ history_of inputs := by
  induction inputs with
  | nil => intro st r0 hist; simp [interactive_loop, history_of]
  | cons lc rest ih =>
    rcases lc with ⟨line, call⟩
    intro st r0 hist
    simp only [interactive_loop, history_of]
    by_cases h1 : trimmed_line line.data = []
    · simp [h1, ih]
    · by_cases h2 : trimmed_line line.data = (r"help").data ∨ trimmed_line line.data = (r"?").data
      · have h3 : ¬(trimmed_line line.data = (r"quit").data
            ∨ trimmed_line line.data = (r"exit").data) := by
          rcases h2 with h2 | h2 <;> rw [h2] <;> decide
        simp [h1, h2, h3, ih]
      · by_cases h3 : trimmed_line line.data = (r"quit").data
            ∨ trimmed_line line.data = (r"exit").data
        · simp [h1, h2, h3]
        · simp [h1, h2, h3, ih]

omit [Zero α] in
theorem history_of_nonblank (inputs : List (String × EngineCall α)) :
    ∀ l ∈ history_of inputs, trimmed_line l.data ≠ [] := by
  induction inputs with
  | nil => intro l hl; simp [history_of] at hl
  | cons lc rest ih =>
    rcases lc with ⟨line, call⟩
    intro l hl
    simp only [history_of] at hl
    by_cases h1 : trimmed_line line.data = []
    · rw [if_pos h1] at hl
      exact ih l hl
    · rw [if_neg h1] at hl
      by_cases h3 : trimmed_line line.data = (r"quit").data
          ∨ trimmed_line line.data = (r"exit").data
      · rw [if_pos h3] at hl
        simp at hl
        rw [hl]
        exact h1
      · rw [if_neg h3] at hl
        rcases List.mem_cons.mp hl with h | h
        · rw [h]
          exact h1
        · exact ih l h

theorem loop_retval (inputs : List (String × EngineCall α)) :
    ∀ (st : MuState α) (r0 : Nat) (hist : List String),
      (interactive_loop st r0 hist inputs).retval = final_retval r0 inputs := by
  induction inputs with
  | nil => intro st r0 hist; rfl
  | cons lc rest ih =>
    rcases lc with ⟨line, call⟩
    intro st r0 hist
    simp only [interactive_loop, final_retval]
    by_cases h1 : trimmed_line line.data = []
    · simp [h1, ih]
    · by_cases h2 : trimmed_line line.data = (r"help").data ∨ trimmed_line line.data = (r"?").data
      · simp [h1, h2, ih]
      · by_cases h3 : trimmed_line line.data = (r"quit").data
            ∨ trimmed_line line.data = (r"exit").data
        · simp [h1, h2, h3]
        · simp [h1, h2, h3, ih, eval_retval]

theorem run_args_foldl (calls : List (EngineCall α)) :
    ∀ (r0 : Nat) (st : MuState α),
      (calls.foldl
        (fun acc call =>
          let e := eval_and_print acc.2 call
          (e.retval, e.state)) (r0, st)).1
        = (calls.map line_outcome).getLastD r0 := by
  induction calls with
  | nil => intro r0 st; rfl
  | cons c cs ih =>
    intro r0 st
    simp only [List.foldl_cons, List.map_cons, List.getLastD_cons]
    rw [ih]
    rw [eval_retval]

/-- The empty completion prefix matches every name
(`strncmp(name, "", 0) == 0`). -/
theorem strncmp_pred_empty (n : String) : strncmp_pred r"" n = true := by
  have h0 : (r"" : String).data = [] := rfl
  unfold strncmp_pred
  rw [h0]
  cases hd : n.data with
  | nil => rfl
  | cons c cs => rfl

/-! ## Claims -/

/-- Claim C1 as frozen is false on the code.  It states that in argument
mode the exit status is 0 if and only if every argument evaluated
successfully.  In the source, `retval = eval_and_print(...)` overwrites
the exit status on every iteration, so a batch whose first argument fails
(a diagnostic, outcome 1) and whose second argument succeeds exits with
status 0 even though an evaluation failed. -/
theorem C1_counterexample :
    (run_args (⟨0, []⟩ : MuState Int)
        [⟨[], EngineOutcome.err ⟨ErrCode.ecUNEXPECTED_EOF, 5, r"nope("⟩⟩,
         ⟨[], EngineOutcome.ok [4] []⟩]).1 = 0
      ∧ ¬ (∀ c ∈ [(⟨[], EngineOutcome.err ⟨ErrCode.ecUNEXPECTED_EOF, 5, r"nope("⟩⟩ : EngineCall Int),
              ⟨[], EngineOutcome.ok [4] []⟩], line_outcome c = 0) := by
  constructor
  · rfl
  · decide

/-- Claim C1, amended as the counterexample forces: in argument mode the
process exit status equals the outcome of the *last* command-line
expression argument — 0 exactly when the last argument evaluated
successfully (and when there are no arguments) — not the logical OR of all
per-argument outcomes. -/
theorem C1_last_argument_wins (st : MuState α) (calls : List (EngineCall α)) :
    (run_args st calls).1 = (calls.map line_outcome).getLastD 0 := by
  unfold run_args
  exact run_args_foldl calls 0 st

/-- Claim C2 as frozen is false on the code.  It states that the
interactive exit code reflects only how the loop terminated and does not
report the failure of the last evaluated line.  In the source, the loop
body executes `retval = eval_and_print(...)` for every evaluated line and
`main` returns that `retval`, so two sessions that both terminate through
the `quit` keyword exit with status 1 and 0 respectively depending on
whether their last evaluated line failed. -/
theorem C2_counterexample :
    (interactive_loop (⟨0, []⟩ : MuState Int) 0 []
        [( r"bad(", ⟨[], EngineOutcome.err ⟨ErrCode.ecUNEXPECTED_EOF, 4, r" "⟩⟩),
         ( r"quit", ⟨[], EngineOutcome.ok [] []⟩)]).retval = 1
      ∧ (interactive_loop (⟨0, []⟩ : MuState Int) 0 []
          [( r"bad(", ⟨[], EngineOutcome.err ⟨ErrCode.ecUNEXPECTED_EOF, 4, r" "⟩⟩),
           ( r"quit", ⟨[], EngineOutcome.ok [] []⟩)]).quit_via_control_d = false
      ∧ (interactive_loop (⟨0, []⟩ : MuState Int) 0 []
          [( r"quit", ⟨[], EngineOutcome.ok [] []⟩)]).retval = 0
      ∧ (interactive_loop (⟨0, []⟩ : MuState Int) 0 []
          [( r"quit", ⟨[], EngineOutcome.ok [] []⟩)]).quit_via_control_d = false := by
  exact ⟨rfl, rfl, rfl, rfl⟩

/-- Claim C2, amended as the counterexample forces: the interactive exit
code is independent of whether the loop terminated through the quit
keyword or through end of input, and equals the outcome of the last line
evaluated before termination (the initial 0 when no line was evaluated) —
so it does report the failure of the last evaluated line. -/
theorem C2_exit_code (st : MuState α) (r0 : Nat) (hist : List String)
    (inputs : List (String × EngineCall α)) :
    (interactive_loop st r0 hist inputs).retval = final_retval r0 inputs :=
  loop_retval inputs st r0 hist

/-- Claim C3: identifier resolution through the variable store is
get-or-create.  A name bound to the reserved last-result cell or to an
existing `added_vars` cell resolves to that existing cell with the store
unchanged; an unbound name allocates a fresh cell initialized to 0.0,
records it at the end of `added_vars` (creation order), and resolves to
it; resolving the same name a second time returns the very same cell
without further allocation. -/
theorem C3_get_or_create (st : MuState α) (name : String) :
    (name = r"_" → engineResolve st name = (CellRef.lastResultCell, st))
    ∧ (∀ i, name ≠ r"_" → lookupVar st.addedVars name = some i →
        engineResolve st name = (CellRef.varCell i, st))
    ∧ (name ≠ r"_" → lookupVar st.addedVars name = none →
        engineResolve st name
            = (CellRef.varCell st.addedVars.length,
               { st with addedVars := st.addedVars ++ [(name, (0 : α))] })
          ∧ getCell (engineResolve st name).2 (engineResolve st name).1 = some (0 : α))
    ∧ engineResolve (engineResolve st name).2 name
        = ((engineResolve st name).1, (engineResolve st name).2) := by
  refine ⟨?_, ?_, ?_, ?_⟩
  · intro h
    simp [engineResolve, h]
  · intro i h hl
    simp [engineResolve, h, hl]
  · intro h hl
    constructor
    · simp [engineResolve, h, hl, add_var]
    · simp [engineResolve, h, hl, add_var, getCell, get_concat_length]
  · by_cases h : name = r"_"
    · simp [engineResolve, h]
    · rcases hl : lookupVar st.addedVars name with _ | i
      · have h2 := lookupVar_append_none hl (0 : α)
        simp [engineResolve, h, hl, add_var, h2]
      · simp [engineResolve, h, hl]

/-- Witness for C3 at concrete inputs: resolving the unbound name `b`
appends a zero cell, resolving the bound name `a` returns the existing
cell and leaves the store unchanged, and resolving `_` yields the
last-result cell. -/
theorem C3_witness :
    engineResolve (⟨7, [( r"a", 5)]⟩ : MuState Int) r"b"
        = (CellRef.varCell 1, ⟨7, [( r"a", 5), ( r"b", 0)]⟩)
      ∧ engineResolve (⟨7, [( r"a", 5)]⟩ : MuState Int) r"a"
        = (CellRef.varCell 0, ⟨7, [( r"a", 5)]⟩)
      ∧ engineResolve (⟨7, [( r"a", 5)]⟩ : MuState Int) r"_"
        = (CellRef.lastResultCell, ⟨7, [( r"a", 5)]⟩) := by
  refine ⟨?_, ?_, ?_⟩
  · exact ((C3_get_or_create (⟨7, [( r"a", 5)]⟩ : MuState Int) r"b").2.2.1
      (by decide) (by rfl)).1
  · exact (C3_get_or_create (⟨7, [( r"a", 5)]⟩ : MuState Int) r"a").2.1 0
      (by decide) (by rfl)
  · exact (C3_get_or_create (⟨7, [( r"a", 5)]⟩ : MuState Int) r"_").1 rfl

/-- Claim C4 as frozen is false on the code.  It states that the fix-up
step is total on every raw diagnostic, including one with an empty token,
and that the out-of-bounds branch is unreachable for every input token.
For an empty token the source executes `token.back()` on an empty
`std::string`, which *is* an out-of-bounds access (undefined behavior,
modelled as `none`); there is no guard in the code. -/
theorem C4_counterexample :
    fix_diag ⟨ErrCode.other 0, 0, r""⟩ = none := rfl

/-- Claim C4, amended as the counterexample forces: the fix-up is total on
every raw diagnostic whose token text is non-empty; it then yields a
corrected diagnostic with the same classification, the adjusted position,
and the token with at most one trailing space removed.  (For an empty
token the trailing-space check reads past the end of the string.) -/
theorem C4_token_fixup (d : RawDiag) (h : d.tok ≠ r"") :
    ∃ d2, fix_diag d = some d2 ∧ d2.code = d.code ∧ d2.pos = fix_pos d.code d.pos
      ∧ (d2.tok = d.tok ∨ d.tok.data = d2.tok.data ++ [' ']) := by
  have hdata : d.tok.data ≠ [] := by
    intro hd
    exact h (String.ext (hd.trans rfl))
  rcases hlast : d.tok.data.getLast? with _ | c
  · exact absurd (List.getLast?_eq_none_iff.mp hlast) hdata
  · by_cases hsp : c = ' '
    · refine ⟨⟨d.code, fix_pos d.code d.pos, ⟨d.tok.data.dropLast⟩⟩, ?_, rfl, rfl, ?_⟩
      · unfold fix_diag fix_token
        rw [hlast]
        simp [hsp]
      · right
        rw [hsp] at hlast
        have hne : d.tok.data ≠ [] := hdata
        have hg := List.getLast?_eq_getLast d.tok.data hne
        rw [hg] at hlast
        have hc : d.tok.data.getLast hne = ' ' := by injection hlast
        show d.tok.data = d.tok.data.dropLast ++ [' ']
        rw [← hc]
        exact (List.dropLast_append_getLast hne).symm
    · refine ⟨⟨d.code, fix_pos d.code d.pos, ⟨d.tok.data⟩⟩, ?_, rfl, rfl, Or.inl ?_⟩
      · unfold fix_diag fix_token
        rw [hlast]
        simp [hsp]
      · show String.mk d.tok.data = d.tok
        rfl

/-- Witness for C4 at a concrete input: the diagnostic with token
`"foo "` (one trailing space) is fixed up to token `"foo"`. -/
theorem C4_witness :
    ((r"foo " : String) ≠ r"")
      ∧ (∃ d2, fix_diag ⟨ErrCode.other 3, 2, r"foo "⟩ = some d2
          ∧ d2.code = ErrCode.other 3
          ∧ d2.pos = fix_pos (ErrCode.other 3) 2
          ∧ (d2.tok = r"foo " ∨ (r"foo " : String).data = d2.tok.data ++ [' '])) :=
  ⟨by decide, C4_token_fixup ⟨ErrCode.other 3, 2, r"foo "⟩ (by decide)⟩

/-- Claim C5: the reported column is the raw 0-based offset plus one,
except that an unexpected-end-of-input error uses the raw offset
unchanged; the result is clamped to a minimum of 1 (so it is always at
least 1, making the `pos - 1` filler-count safe); the caret marker line
consists of (column - 1) spaces followed by a single caret, i.e. its
length is the column, its last character is the caret and everything
before it is a space.  In particular a non-EOF error at raw offset 0
renders the caret at column 1 and an EOF-class error at raw offset 3
renders it at column 3. -/
theorem C5_column_and_caret (code : ErrCode) (pos : Nat) :
    (code ≠ ErrCode.ecUNEXPECTED_EOF → fix_pos code pos = pos + 1)
    ∧ (code = ErrCode.ecUNEXPECTED_EOF → fix_pos code pos = max pos 1)
    ∧ 1 ≤ fix_pos code pos
    ∧ (caret_line (fix_pos code pos)).length = fix_pos code pos
    ∧ (caret_line (fix_pos code pos)).get? (fix_pos code pos - 1) = some '^'
    ∧ (∀ i, i < fix_pos code pos - 1 → (caret_line (fix_pos code pos)).get? i = some ' ')
    ∧ fix_pos (ErrCode.other 0) 0 = 1
    ∧ fix_pos ErrCode.ecUNEXPECTED_EOF 3 = 3 := by
  have hA : code ≠ ErrCode.ecUNEXPECTED_EOF → fix_pos code pos = pos + 1 := by
    intro h
    simp [fix_pos, h]
  have hB : code = ErrCode.ecUNEXPECTED_EOF → fix_pos code pos = max pos 1 := by
    intro h
    subst h
    simp only [fix_pos, ne_eq, not_true_eq_false, if_false]
    rcases Nat.eq_zero_or_pos pos with h0 | h0
    · simp [h0]
    · rw [if_neg (by omega)]
      omega
  have hC : 1 ≤ fix_pos code pos := by
    by_cases hc : code = ErrCode.ecUNEXPECTED_EOF
    · rw [hB hc]
      omega
    · rw [hA hc]
      omega
  refine ⟨hA, hB, hC, ?_, ?_, ?_, by decide, by decide⟩
  · simp only [caret_line, List.length_append, List.length_replicate,
      List.length_cons, List.length_nil]
    omega
  · have hg := get_concat_length (List.replicate (fix_pos code pos - 1) ' ') '^'
    rw [List.length_replicate] at hg
    exact hg
  · intro i hi
    unfold caret_line
    rw [List.get?_append (by simpa using hi)]
    exact replicate_get ' ' (fix_pos code pos - 1) i hi

/-- Witness for C5 at the two concrete scenarios of the claim: a non-EOF
error at raw offset 0 gets column 1 and an EOF-class error at raw offset 3
keeps column 3, where the caret sits. -/
theorem C5_witness :
    (ErrCode.other 0 ≠ ErrCode.ecUNEXPECTED_EOF)
      ∧ fix_pos (ErrCode.other 0) 0 = 0 + 1
      ∧ fix_pos ErrCode.ecUNEXPECTED_EOF 3 = max 3 1
      ∧ (caret_line (fix_pos ErrCode.ecUNEXPECTED_EOF 3)).get?
          (fix_pos ErrCode.ecUNEXPECTED_EOF 3 - 1) = some '^' :=
  ⟨by decide,
   (C5_column_and_caret (ErrCode.other 0) 0).1 (by decide),
   (C5_column_and_caret ErrCode.ecUNEXPECTED_EOF 3).2.1 rfl,
   (C5_column_and_caret ErrCode.ecUNEXPECTED_EOF 3).2.2.2.2.1⟩

/-- Claim C6: when an evaluation fails with a diagnostic, the last-result
cell and every previously created variable cell keep their values; the
only state the failed evaluation adds is the zero-initialized cells for
the identifiers the engine resolved before the failure point, appended in
order, and those cells stay registered — in particular each such name
appears in the completion enumeration afterwards. -/
theorem C6_failed_eval (st : MuState α) (call : EngineCall α) (d : RawDiag)
    (h : call.outcome = EngineOutcome.err d) :
    (eval_and_print st call).state.lastResult = st.lastResult
    ∧ (eval_and_print st call).state.addedVars
        = st.addedVars ++ call.newVars.map (fun n => (n, (0 : α)))
    ∧ (∀ i, i < st.addedVars.length →
        (eval_and_print st call).state.addedVars.get? i = st.addedVars.get? i)
    ∧ (∀ n ∈ call.newVars,
        (n, ' ') ∈ genAll (strncmp_pred r"")
          ⟨function_names, constant_names,
           (eval_and_print st call).state.addedVars.map Prod.fst⟩) := by
  rcases call with ⟨nv, o⟩
  simp only at h
  subst h
  have hfold := foldl_add_var nv st
  simp only [eval_and_print]
  refine ⟨hfold.2, hfold.1, ?_, ?_⟩
  · intro i hi
    rw [hfold.1]
    exact List.get?_append hi
  · intro n hn
    rw [gen_all_eq (strncmp_pred r"") (genMeasure
        ⟨function_names, constant_names,
         ((List.foldl (fun s n => add_var n s) st nv).addedVars.map Prod.fst)⟩) _ le_rfl]
    simp only [complete_spec, List.mem_append]
    right
    refine List.mem_map.mpr ⟨n, List.mem_filter.mpr ⟨?_, strncmp_pred_empty n⟩, rfl⟩
    rw [hfold.1, List.map_append]
    apply List.mem_append_right
    exact List.mem_map.mpr ⟨(n, (0 : α)), List.mem_map.mpr ⟨n, hn, rfl⟩, rfl⟩

/-- Witness for C6 at a concrete input: a failing evaluation that had
resolved the fresh identifier `q` leaves the last result 7 and the cell
`a = 5` untouched, appends `q = 0`, and `q` shows up in the completion
enumeration. -/
theorem C6_witness :
    (eval_and_print (⟨7, [( r"a", 5)]⟩ : MuState Int)
        ⟨[ r"q"], EngineOutcome.err ⟨ErrCode.other 1, 2, r"+ "⟩⟩).state.lastResult = 7
    ∧ (eval_and_print (⟨7, [( r"a", 5)]⟩ : MuState Int)
        ⟨[ r"q"], EngineOutcome.err ⟨ErrCode.other 1, 2, r"+ "⟩⟩).state.addedVars
      = [( r"a", 5), ( r"q", 0)]
    ∧ ( r"q", ' ') ∈ genAll (strncmp_pred r"")
        ⟨function_names, constant_names,
         (eval_and_print (⟨7, [( r"a", 5)]⟩ : MuState Int)
           ⟨[ r"q"], EngineOutcome.err ⟨ErrCode.other 1, 2, r"+ "⟩⟩).state.addedVars.map
             Prod.fst⟩ := by
  have h := C6_failed_eval (⟨7, [( r"a", 5)]⟩ : MuState Int)
    ⟨[ r"q"], EngineOutcome.err ⟨ErrCode.other 1, 2, r"+ "⟩⟩
    ⟨ErrCode.other 1, 2, r"+ "⟩ rfl
  exact ⟨h.1.trans rfl, h.2.1.trans rfl, h.2.2.2 r"q" (by simp)⟩

/-- Claim C7: a successful evaluation prints its results in source order
(each value followed by a comma separator, the last by a newline) and
stores the first result into the last-result cell when there is at least
one result; an evaluation with zero results prints nothing and leaves the
last-result cell unchanged. -/
theorem C7_success (st : MuState α) (call : EngineCall α) (results : List α)
    (updates : List (String × α)) (h : call.outcome = EngineOutcome.ok results updates) :
    (eval_and_print st call).retval = 0
    ∧ (eval_and_print st call).printed = print_results results
    ∧ (print_results results).map Prod.fst = results
    ∧ (∀ r rs, results = r :: rs → (eval_and_print st call).state.lastResult = r)
    ∧ (results = [] → (eval_and_print st call).state.lastResult = st.lastResult
        ∧ (eval_and_print st call).printed = []) := by
  rcases call with ⟨nv, o⟩
  simp only at h
  subst h
  have hfold := foldl_add_var nv st
  refine ⟨rfl, rfl, print_results_fst results, ?_, ?_⟩
  · intro r rs hr
    subst hr
    rfl
  · intro hr
    subst hr
    exact ⟨hfold.2, rfl⟩

/-- Witness for C7 at concrete inputs: two results are printed in order
with the first stored as the last result; zero results print nothing and
keep the previous last result. -/
theorem C7_witness :
    (eval_and_print (⟨7, []⟩ : MuState Int) ⟨[], EngineOutcome.ok [3, 4] []⟩).printed
        = print_results [3, 4]
      ∧ (eval_and_print (⟨7, []⟩ : MuState Int) ⟨[], EngineOutcome.ok [3, 4] []⟩).state.lastResult = 3
      ∧ (eval_and_print (⟨7, []⟩ : MuState Int) ⟨[], EngineOutcome.ok [] []⟩).printed = []
      ∧ (eval_and_print (⟨7, []⟩ : MuState Int) ⟨[], EngineOutcome.ok [] []⟩).state.lastResult = 7 := by
  refine ⟨(C7_success (⟨7, []⟩ : MuState Int) ⟨[], EngineOutcome.ok [3, 4] []⟩ [3, 4] [] rfl).2.1,
    (C7_success (⟨7, []⟩ : MuState Int) ⟨[], EngineOutcome.ok [3, 4] []⟩ [3, 4] [] rfl).2.2.2.1 3 [4] rfl,
    ((C7_success (⟨7, []⟩ : MuState Int) ⟨[], EngineOutcome.ok [] []⟩ [] [] rfl).2.2.2.2 rfl).2,
    ((C7_success (⟨7, []⟩ : MuState Int) ⟨[], EngineOutcome.ok [] []⟩ [] [] rfl).2.2.2.2 rfl).1.trans rfl⟩

/-- Claim C8: for every completion prefix and every live variable list,
the generator enumerates exactly the names the prefix is a literal
case-sensitive prefix of, in the fixed order: matching function names
(with the opening-parenthesis append character), then matching constant
names (space append character), then matching variable names in creation
order (space append character).  The variable list is read at call time,
so the enumeration reflects all variables created up to the call. -/
theorem C8_completion (text : String) (vars : List String) :
    genAll (strncmp_pred text) ⟨function_names, constant_names, vars⟩
      = (function_names.filter (fun n => text.data.isPrefixOf n.data)).map (fun n => (n, '('))
        ++ (constant_names.filter (fun n => text.data.isPrefixOf n.data)).map (fun n => (n, ' '))
        ++ (vars.filter (fun n => text.data.isPrefixOf n.data)).map (fun n => (n, ' ')) := by
  have hp : strncmp_pred text = fun n => text.data.isPrefixOf n.data := by
    funext n
    exact strncmp_eq_prefix text.data n.data
  rw [gen_all_eq (strncmp_pred text)
      (genMeasure ⟨function_names, constant_names, vars⟩) _ le_rfl]
  simp [complete_spec, hp]

/-- Claim C9: in interactive mode every read line whose trim is non-empty
is appended to history exactly once, in reading order, including lines
classified as the help or the quit keyword (the terminating `quit`/`exit`
line included, nothing after it); lines that are blank after trimming are
never appended.  The session history equals the initial history plus
exactly the reference list `history_of`, every element of which is
non-blank after trimming. -/
theorem C9_history (st : MuState α) (r0 : Nat) (hist : List String)
    (inputs : List (String × EngineCall α)) :
    (interactive_loop st r0 hist inputs).history = hist ++ history_of inputs
    ∧ (∀ l ∈ history_of inputs, trimmed_line l.data ≠ []) :=
  ⟨loop_history inputs st r0 hist, history_of_nonblank inputs⟩

/-- Witness for C9 at a concrete session: the expression line, the `help`
line and the terminating `quit` line are recorded once each, the all-blank
line is not, and a recorded line is non-blank after trimming. -/
theorem C9_witness :
    (interactive_loop (⟨0, []⟩ : MuState Int) 0 []
        [( r"1+1", ⟨[], EngineOutcome.ok [2] []⟩),
         ( r"   ", ⟨[], EngineOutcome.ok [] []⟩),
         ( r"help", ⟨[], EngineOutcome.ok [] []⟩),
         ( r"quit", ⟨[], EngineOutcome.ok [] []⟩)]).history
      = [ r"1+1", r"help", r"quit"]
    ∧ trimmed_line (r"help" : String).data ≠ [] := by
  have h := C9_history (⟨0, []⟩ : MuState Int) 0 []
    [( r"1+1", ⟨[], EngineOutcome.ok [2] []⟩),
     ( r"   ", ⟨[], EngineOutcome.ok [] []⟩),
     ( r"help", ⟨[], EngineOutcome.ok [] []⟩),
     ( r"quit", ⟨[], EngineOutcome.ok [] []⟩)]
  exact ⟨h.1.trans rfl, h.2 r"help" (by decide)⟩

/-- Claim C10 as frozen is false on the code.  It states that every line
consisting only of whitespace characters *such as spaces or tabs* is
classified blank and triggers the short usage hint with no evaluation.
The source trims with `find_first_not_of(' ')`, which strips spaces only:
a line consisting of a single tab — a whitespace character — is classified
non-blank and is evaluated (here failing, outcome 1), and the short usage
hint is not printed. -/
theorem C10_counterexample :
    ('\t').isWhitespace = true
    ∧ (interactive_loop (⟨0, []⟩ : MuState Int) 0 []
        [(String.mk ['\t'],
          ⟨[], EngineOutcome.err ⟨ErrCode.ecUNEXPECTED_EOF, 0, r" "⟩⟩)]).events
      = [Event.evaluated 1]
    ∧ Event.shortHelp ∉ (interactive_loop (⟨0, []⟩ : MuState Int) 0 []
        [(String.mk ['\t'],
          ⟨[], EngineOutcome.err ⟨ErrCode.ecUNEXPECTED_EOF, 0, r" "⟩⟩)]).events := by
  refine ⟨by decide, rfl, by decide⟩

/-- Claim C10, amended as the counterexample forces: classification trims
only the space character, so a line is classified blank exactly when it
consists solely of spaces (or is empty); every such line prints the short
usage hint and is not evaluated, leaving the state, history, exit code and
termination flag exactly as the rest of the session produces them.
Whitespace-only lines containing other blank characters such as tabs are
treated as expressions. -/
theorem C10_blank_lines (st : MuState α) (r0 : Nat) (hist : List String)
    (line : String) (call : EngineCall α) (rest : List (String × EngineCall α)) :
    (trimmed_line line.data = [] ↔ ∀ c ∈ line.data, c = ' ')
    ∧ ((∀ c ∈ line.data, c = ' ') →
        interactive_loop st r0 hist ((line, call) :: rest)
          = { interactive_loop st r0 hist rest with
              events := Event.shortHelp :: (interactive_loop st r0 hist rest).events }) := by
  constructor
  · exact trimmed_line_eq_nil_iff line.data
  · intro h
    have ht : trimmed_line line.data = [] := (trimmed_line_eq_nil_iff line.data).mpr h
    simp [interactive_loop, ht]

/-- Witness for C10 at a concrete input: a line of two spaces is blank
after trimming, prints the short usage hint and changes nothing else. -/
theorem C10_witness :
    (∀ c ∈ (r"  " : String).data, c = ' ')
    ∧ interactive_loop (⟨0, []⟩ : MuState Int) 0 []
          [( r"  ", (⟨[], EngineOutcome.ok [] []⟩ : EngineCall Int))]
        = { interactive_loop (⟨0, []⟩ : MuState Int) 0 []
              ([] : List (String × EngineCall Int)) with
            events := Event.shortHelp
              :: (interactive_loop (⟨0, []⟩ : MuState Int) 0 []
                    ([] : List (String × EngineCall Int))).events } := by
  refine ⟨by decide, ?_⟩
  exact (C10_blank_lines (⟨0, []⟩ : MuState Int) 0 [] r"  "
    (⟨[], EngineOutcome.ok [] []⟩ : EngineCall Int) []).2 (by decide)

end Mucalc
